import Mathlib

/-!
Verification of the RAG-service text core (normalizer, chunker, prompt
assembly, upload validation) of the chatbot platform.  Python strings are
embedded as `List Char`; each definition mirrors the corresponding function
in `app/chunking.py`, `app/rag.py` or `app/main.py`.
-/

set_option maxHeartbeats 1000000

namespace RagCore

/-- Characters stripped by Python `str.strip()` (ASCII whitespace). -/
def isPyWS (c : Char) : Bool :=
  c = ' ' || c = '\t' || c = '\n' || c = '\r' || c = '\x0b' || c = '\x0c'

/-- Horizontal whitespace, the class `[ \t]` of `normalize_text`. -/
def isHWS (c : Char) : Bool := c = ' ' || c = '\t'

/-- Remove trailing `isPyWS` characters. -/
def dropTrailingWs (l : List Char) : List Char :=
  (l.reverse.dropWhile isPyWS).reverse

/-- Python `str.strip()`: remove leading and trailing whitespace. -/
def pyStrip (l : List Char) : List Char :=
  dropTrailingWs (l.dropWhile isPyWS)

/-- Model of `text.replace("\r", "\n")` from `normalize_text`. -/
def replaceCr (l : List Char) : List Char :=
  l.map (fun c => if c = '\r' then '\n' else c)

/-- Model of `re.sub(r"\n{3,}", "\n\n", text)`: within every maximal run of
newlines, keep at most two.  `k` counts the newlines of the current run
already seen. -/
def collapseNlAux : Nat → List Char → List Char
  | _, [] => []
  | k, c :: rest =>
    if c = '\n' then
      if k < 2 then c :: collapseNlAux (k + 1) rest else collapseNlAux (k + 1) rest
    else c :: collapseNlAux 0 rest

/-- Model of `re.sub(r"[ \t]+", " ", text)`: every maximal run of spaces/tabs
becomes one space.  `prev` records whether the previous character was
horizontal whitespace. -/
def collapseSpAux : Bool → List Char → List Char
  | _, [] => []
  | prev, c :: rest =>
    if isHWS c then
      if prev then collapseSpAux true rest else ' ' :: collapseSpAux true rest
    else c :: collapseSpAux false rest

/-- Model of `normalize_text` from `app/chunking.py`. -/
def normalize_text (l : List Char) : List Char :=
  pyStrip (collapseSpAux false (collapseNlAux 0 (replaceCr l)))

/-- The paragraph separator `"\n\n"`. -/
def sep2 : List Char := ['\n', '\n']

/-- Python `text.split("\n\n")`: leftmost, non-overlapping. -/
def splitOnNl2 : List Char → List (List Char)
  | [] => [[]]
  | '\n' :: '\n' :: rest => [] :: splitOnNl2 rest
  | c :: rest =>
    match splitOnNl2 rest with
    | [] => [[c]]
    | h :: t => (c :: h) :: t

/-- Model of `[p.strip() for p in text.split("\n\n") if p.strip()]`. -/
def paragraphs (l : List Char) : List (List Char) :=
  ((splitOnNl2 l).map pyStrip).filter (fun p => p ≠ [])

/-- Python `s[-n:]` for `0 < n` (and also `s.drop (s.length - n)` at
`n = 0`, where it denotes the empty suffix, unlike Python). -/
def takeLast (n : Nat) (l : List Char) : List Char :=
  l.drop (l.length - n)

/-- Model of `current_chunk += "\n\n" + para` guarded by `if current_chunk:`
(else `current_chunk = para`). -/
def addPara (cur p : List Char) : List Char :=
  if cur = [] then p else cur ++ sep2 ++ p

/-- The overlap seeding of `split_into_chunks`:
`current_chunk[-overlap:]` if `overlap > 0 and len(current_chunk) > overlap`,
else `""`. -/
def seedOf (overlap : Nat) (cur : List Char) : List Char :=
  if 0 < overlap ∧ overlap < cur.length then takeLast overlap cur else []

/-- The `if current_chunk:` body that emits `current_chunk.strip()` and
re-seeds the buffer with the overlap tail. -/
def chunkFinalize (overlap : Nat) (st : List (List Char) × List Char) :
    List (List Char) × List Char :=
  if st.2 ≠ [] then (st.1 ++ [pyStrip st.2], seedOf overlap st.2) else st

/-- One iteration of the paragraph loop of `split_into_chunks`:
state is `(chunks, current_chunk)`; finalize when the paragraph would
overflow the buffer, then append the paragraph. -/
def chunkStep (maxSize overlap : Nat) (st : List (List Char) × List Char)
    (para : List Char) : List (List Char) × List Char :=
  let st' :=
    if maxSize < st.2.length + para.length + 2 then chunkFinalize overlap st else st
  (st'.1, addPara st'.2 para)

/-- The trailing `if current_chunk.strip(): chunks.append(current_chunk.strip())`
of `split_into_chunks`. -/
def chunkEmit (st : List (List Char) × List Char) : List (List Char) :=
  if pyStrip st.2 ≠ [] then st.1 ++ [pyStrip st.2] else st.1

/-- Model of `split_into_chunks` from `app/chunking.py`. -/
def split_into_chunks (text : List Char) (maxSize overlap : Nat) : List (List Char) :=
  chunkEmit ((paragraphs (normalize_text text)).foldl (chunkStep maxSize overlap) ([], []))

/-- Model of `trim_prompt` from `app/rag.py`; `prompt[-max_chars:]` returns the
whole string when `max_chars = 0` (Python `-0 = 0`). -/
def trim_prompt (prompt : List Char) (maxChars : Nat) : List Char :=
  if prompt.length ≤ maxChars then prompt
  else if maxChars = 0 then prompt else takeLast maxChars prompt

/-- Python `str.capitalize()`: first character uppercased, the rest
lowercased. -/
def pyCapitalize : List Char → List Char
  | [] => []
  | c :: rest => c.toUpper :: rest.map Char.toLower

/-- A chat message `{"role": ..., "content": ...}` as `(role, content)`. -/
abbrev ChatMsg := List Char × List Char

/-- The history loop of `build_prompt`:
`history_text += f"{role.capitalize()}: {msg['content']}\n"`. -/
def historyText (hist : List ChatMsg) : List Char :=
  hist.foldl (fun acc msg => acc ++ pyCapitalize msg.1 ++ (": ".data) ++ msg.2 ++ ['\n']) []

/-- Fixed template text of `build_prompt` before the history block
(after the leading newline of the f-string). -/
def promptHead : List Char :=
  ("You are a helpful customer-support chatbot.\nAnswer ONLY using the provided context.\nIf the answer is not in the context, say you don't know.\n\nConversation history:\n").data

/-- Template text between the history block and the context block. -/
def promptMid1 : List Char := ("\n\nContext documents:\n").data

/-- Template text between the context block and the question. -/
def promptMid2 : List Char := ("\n\nUser question:\n").data

/-- Template text after the question (before the trailing newline of
the f-string). -/
def promptTail : List Char := ("\n\nAnswer:").data

/-- Model of `build_prompt` from `app/rag.py`: fills the f-string template with
`"\n\n".join(retrieved_chunks)`, the rendered history and the question,
then applies `.strip()`. -/
def build_prompt (retrievedChunks : List (List Char)) (chatHistory : List ChatMsg)
    (userQuestion : List Char) : List Char :=
  let context := List.intercalate sep2 retrievedChunks
  pyStrip ('\n' :: (promptHead ++ historyText chatHistory ++ promptMid1 ++ context ++
    promptMid2 ++ userQuestion ++ promptTail) ++ ['\n'])

/-- Outcome of the `POST /documents/upload` handler, object storage
abstracted: `stored key` means the raw bytes were put under `key`. -/
inductive UploadResult where
  | rejected (status : Nat)
  | stored (objectName : List Char)
deriving DecidableEq, Repr

/-- Model of `file.filename.lower().endswith(".pdf")` from `upload_pdf`. -/
def hasPdfExt (filename : List Char) : Bool :=
  List.isSuffixOf ((".pdf").data) (filename.map Char.toLower)

/-- Model of `upload_pdf` from `app/main.py`: reject non-`.pdf` filenames with
HTTP 400 before touching storage, otherwise store under
`f"{chatbot_id}/{file.filename}"` (the success path of `put_object`). -/
def upload_pdf (chatbotId filename : List Char) : UploadResult :=
  if ¬ hasPdfExt filename then .rejected 400
  else .stored (chatbotId ++ '/' :: filename)

/-! ### Instrumented chunker

`split_into_chunks` refined to record, for every emitted chunk, the
overlap seed its buffer started from and the paragraphs appended to it.
-/

/-- The buffer obtained from seed `s` by appending the paragraphs `ps`. -/
def bufOf (s : List Char) (ps : List (List Char)) : List Char :=
  ps.foldl addPara s

/-- Instrumented loop state: finalized `(seed, paragraphs)` records plus
the live buffer's seed and paragraphs. -/
structure CState where
  recs : List (List Char × List (List Char))
  seed : List Char
  curPs : List (List Char)

/-- Instrumented version of `chunkStep`: finalization happens exactly
when the paragraph overflows a nonempty buffer. -/
def instrStep (maxSize overlap : Nat) (st : CState) (p : List Char) : CState :=
  if maxSize < (bufOf st.seed st.curPs).length + p.length + 2 ∧
      bufOf st.seed st.curPs ≠ [] then
    ⟨st.recs ++ [(st.seed, st.curPs)], seedOf overlap (bufOf st.seed st.curPs), [p]⟩
  else ⟨st.recs, st.seed, st.curPs ++ [p]⟩

/-- The final emission of the instrumented state. -/
def instrEmit (st : CState) : List (List Char × List (List Char)) :=
  if pyStrip (bufOf st.seed st.curPs) ≠ [] then st.recs ++ [(st.seed, st.curPs)]
  else st.recs

/-- The `(seed, paragraphs)` records of all chunks returned by
`split_into_chunks`. -/
def chunkRecs (text : List Char) (maxSize overlap : Nat) :
    List (List Char × List (List Char)) :=
  instrEmit ((paragraphs (normalize_text text)).foldl (instrStep maxSize overlap) ⟨[], [], []⟩)

/-- Value of `ps.foldl (fun a p => a ++ sep2 ++ p) []`: the tail a nonempty buffer
gains from its paragraphs. -/
def glueParas (ps : List (List Char)) : List Char :=
  ps.foldl (fun a p => a ++ sep2 ++ p) []

/-- Paragraphs joined by the `"\n\n"` separator, starting from nothing:
the buffer grown from an empty seed. -/
def sepJoin (ps : List (List Char)) : List Char := bufOf [] ps

/-- The chunk string a record denotes: its buffer, stripped. -/
def chunkOf (r : List Char × List (List Char)) : List Char :=
  pyStrip (bufOf r.1 r.2)

/-! ### Claim-level predicates on normalized text -/

/-- Some three consecutive characters are all newlines. -/
def hasTripleNl : List Char → Bool
  | [] => false
  | [_] => false
  | [_, _] => false
  | a :: b :: c :: rest =>
    (a = '\n' && b = '\n' && c = '\n') || hasTripleNl (b :: c :: rest)

/-- Some two consecutive characters are both horizontal whitespace. -/
def hasDoubleHws : List Char → Bool
  | [] => false
  | [_] => false
  | a :: b :: rest => (isHWS a && isHWS b) || hasDoubleHws (b :: rest)

/-- Newline-run discipline: with `k` newlines immediately before, no run
of the list extends a run to length three. -/
def nlOk : Nat → List Char → Bool
  | _, [] => true
  | k, c :: rest => if c = '\n' then decide (k < 2) && nlOk (k + 1) rest else nlOk 0 rest

/-- Space discipline: no tab anywhere and no space directly after
horizontal whitespace (`prev` is the flag for the preceding character). -/
def spOk : Bool → List Char → Bool
  | _, [] => true
  | prev, c :: rest =>
    if c = ' ' then !prev && spOk true rest
    else if c = '\t' then false
    else spOk false rest

/-- No character of the list satisfies Python-whitespace at the given
end: head form. -/
def headNotWs (l : List Char) : Prop := ∀ c ∈ l.head?, isPyWS c = false

/-- Last character, if any, is not whitespace. -/
def endsNotWs (l : List Char) : Prop := ∀ c ∈ l.getLast?, isPyWS c = false

/-- A paragraph produced by `paragraphs`: already stripped and nonempty. -/
def goodPara (p : List Char) : Prop := pyStrip p = p ∧ p ≠ []

/-- Invariant of the instrumented chunker state, for overlap `o`. -/
structure ChunkInv (o : Nat) (st : CState) : Prop where
  recsNe : ∀ r ∈ st.recs, r.2 ≠ []
  recsGood : ∀ r ∈ st.recs, ∀ p ∈ r.2, goodPara p
  curGood : ∀ p ∈ st.curPs, goodPara p
  seedEnd : endsNotWs st.seed
  recsSeedEnd : ∀ r ∈ st.recs, endsNotWs r.1
  emptyCur : st.curPs = [] → st.seed = []
  firstSeed : (st.recs.headD (st.seed, st.curPs)).1 = []
  chain : List.Chain' (fun a b => b.1 = seedOf o (bufOf a.1 a.2))
    (st.recs ++ [(st.seed, st.curPs)])

/-! ### Utility lemmas about `dropWhile`, `pyStrip`, `takeLast` -/

theorem dropWhile_head_not (p : Char → Bool) (l : List Char) :
    ∀ c ∈ (l.dropWhile p).head?, p c = false := by
  induction l with
  | nil => simp [List.dropWhile]
  | cons a rest ih =>
    intro c hc
    rw [List.dropWhile_cons] at hc
    by_cases h : p a
    · rw [if_pos h] at hc
      exact ih c hc
    · rw [if_neg h] at hc
      simp only [List.head?_cons, Option.mem_def, Option.some.injEq] at hc
      subst hc
      exact Bool.eq_false_iff.mpr h

theorem dropWhile_eq_self (p : Char → Bool) (l : List Char)
    (h : ∀ c ∈ l.head?, p c = false) : l.dropWhile p = l := by
  cases l with
  | nil => rfl
  | cons a rest =>
    have ha : p a = false := h a (by simp)
    rw [List.dropWhile_cons, if_neg (by simp [ha])]

theorem dropTrailingWs_pre (l : List Char) : dropTrailingWs l <+: l := by
  obtain ⟨u, hu⟩ := List.dropWhile_suffix (l := l.reverse) isPyWS
  refine ⟨u.reverse, ?_⟩
  have h2 := congrArg List.reverse hu
  rw [List.reverse_append, List.reverse_reverse] at h2
  exact h2

theorem dropTrailingWs_eq_self (l : List Char) (h : endsNotWs l) :
    dropTrailingWs l = l := by
  unfold dropTrailingWs
  rw [dropWhile_eq_self _ _ (by simpa [List.head?_reverse] using h), List.reverse_reverse]

theorem head?_of_pre {l₁ l₂ : List Char} (h : l₁ <+: l₂) (hne : l₁ ≠ []) :
    l₁.head? = l₂.head? := by
  obtain ⟨u, rfl⟩ := h
  cases l₁ with
  | nil => exact absurd rfl hne
  | cons a rest => simp

theorem getLast?_of_suffix {l₁ l₂ : List Char} (h : l₁ <:+ l₂) (hne : l₁ ≠ []) :
    l₁.getLast? = l₂.getLast? := by
  obtain ⟨u, rfl⟩ := h
  rw [List.getLast?_append]
  cases hl : l₁.getLast? with
  | none => exact absurd (List.getLast?_eq_none_iff.mp hl) hne
  | some a => rfl

theorem endsNotWs_of_suffix {l₁ l₂ : List Char} (h : l₁ <:+ l₂)
    (h₂ : endsNotWs l₂) : endsNotWs l₁ := by
  intro c hc
  by_cases hne : l₁ = []
  · subst hne; simp at hc
  · rw [getLast?_of_suffix h hne] at hc
    exact h₂ c hc

theorem headNotWs_pyStrip (l : List Char) : headNotWs (pyStrip l) := by
  intro c hc
  by_cases hne : pyStrip l = []
  · rw [hne] at hc; simp at hc
  · have hpre := dropTrailingWs_pre (l.dropWhile isPyWS)
    rw [show pyStrip l = dropTrailingWs (l.dropWhile isPyWS) from rfl] at hc hne
    rw [head?_of_pre hpre hne] at hc
    exact dropWhile_head_not isPyWS l c hc

theorem endsNotWs_pyStrip (l : List Char) : endsNotWs (pyStrip l) := by
  intro c hc
  unfold pyStrip dropTrailingWs at hc
  rw [List.getLast?_reverse] at hc
  exact dropWhile_head_not isPyWS _ c hc

theorem pyStrip_eq_self (l : List Char) (h1 : headNotWs l) (h2 : endsNotWs l) :
    pyStrip l = l := by
  unfold pyStrip
  rw [dropWhile_eq_self _ _ h1, dropTrailingWs_eq_self _ h2]

theorem pyStrip_idem (l : List Char) : pyStrip (pyStrip l) = pyStrip l :=
  pyStrip_eq_self _ (headNotWs_pyStrip l) (endsNotWs_pyStrip l)

theorem pyStrip_eq_dropWhile (l : List Char) (h : endsNotWs l) :
    pyStrip l = l.dropWhile isPyWS := by
  unfold pyStrip
  by_cases hm : l.dropWhile isPyWS = []
  · rw [hm]; rfl
  · exact dropTrailingWs_eq_self _
      (endsNotWs_of_suffix (List.dropWhile_suffix isPyWS) h)

theorem pyStrip_ne_nil (l : List Char) (h : endsNotWs l) (hne : l ≠ []) :
    pyStrip l ≠ [] := by
  rw [pyStrip_eq_dropWhile l h]
  intro hd
  have hall := List.dropWhile_eq_nil_iff.mp hd
  obtain ⟨c, hc⟩ := Option.ne_none_iff_exists'.mp
    (fun hn => hne (List.getLast?_eq_none_iff.mp hn))
  have := h c hc
  have := hall c (List.mem_of_mem_getLast? hc)
  simp_all

theorem pyStrip_sublist (l : List Char) : (pyStrip l).Sublist l := by
  have h1 : (pyStrip l).Sublist (l.dropWhile isPyWS) :=
    (dropTrailingWs_pre _).sublist
  exact h1.trans (List.dropWhile_suffix isPyWS).sublist

theorem pyStrip_length_le (l : List Char) : (pyStrip l).length ≤ l.length :=
  (pyStrip_sublist l).length_le

theorem dropWhile_append_of_ne_nil {p : Char → Bool} {l₁ : List Char}
    (l₂ : List Char) (h : l₁.dropWhile p ≠ []) :
    (l₁ ++ l₂).dropWhile p = l₁.dropWhile p ++ l₂ := by
  rw [List.dropWhile_append, if_neg (by simpa [List.isEmpty_iff] using h)]

theorem takeLast_suffix (n : Nat) (l : List Char) : takeLast n l <:+ l :=
  List.drop_suffix _ l

theorem takeLast_length (n : Nat) (l : List Char) (h : n ≤ l.length) :
    (takeLast n l).length = n := by
  unfold takeLast
  rw [List.length_drop]
  omega

theorem takeLast_of_suffix {l₁ l₂ : List Char} (n : Nat) (h : l₂ <:+ l₁)
    (hn : n ≤ l₂.length) : takeLast n l₁ = takeLast n l₂ := by
  obtain ⟨u, rfl⟩ := h
  unfold takeLast
  rw [List.length_append,
    show u.length + l₂.length - n = u.length + (l₂.length - n) by omega,
    List.drop_append]

theorem goodPara_head {p : List Char} (h : goodPara p) : headNotWs p := by
  have := headNotWs_pyStrip p
  rwa [h.1] at this

theorem goodPara_last {p : List Char} (h : goodPara p) : endsNotWs p := by
  have := endsNotWs_pyStrip p
  rwa [h.1] at this

theorem paragraphs_good (l : List Char) : ∀ p ∈ paragraphs l, goodPara p := by
  intro p hp
  unfold paragraphs at hp
  rw [List.mem_filter] at hp
  obtain ⟨hmem, hne⟩ := hp
  obtain ⟨q, _, rfl⟩ := List.mem_map.mp hmem
  exact ⟨pyStrip_idem q, by simpa using hne⟩


/-! ### Invariants of `normalize_text` -/

theorem nlOk_nil (k : Nat) : nlOk k [] = true := rfl

theorem nlOk_cons_nl (k : Nat) (rest : List Char) :
    nlOk k ('\n' :: rest) = (decide (k < 2) && nlOk (k + 1) rest) := by
  simp [nlOk]

theorem nlOk_cons_other (k : Nat) {a : Char} (rest : List Char) (ha : a ≠ '\n') :
    nlOk k (a :: rest) = nlOk 0 rest := by
  simp [nlOk, ha]

theorem spOk_cons_space (f : Bool) (rest : List Char) :
    spOk f (' ' :: rest) = (!f && spOk true rest) := by
  simp [spOk]

theorem spOk_cons_tab (f : Bool) (rest : List Char) :
    spOk f ('\t' :: rest) = false := by
  simp [spOk]

theorem spOk_cons_other (f : Bool) {a : Char} (rest : List Char)
    (h1 : a ≠ ' ') (h2 : a ≠ '\t') : spOk f (a :: rest) = spOk false rest := by
  simp [spOk, h1, h2]

theorem collapseNl_cons_nl_lt (k : Nat) (rest : List Char) (hk : k < 2) :
    collapseNlAux k ('\n' :: rest) = '\n' :: collapseNlAux (k + 1) rest := by
  simp [collapseNlAux, hk]

theorem collapseNl_cons_nl_ge (k : Nat) (rest : List Char) (hk : ¬ k < 2) :
    collapseNlAux k ('\n' :: rest) = collapseNlAux (k + 1) rest := by
  simp [collapseNlAux, hk]

theorem collapseNl_cons_other (k : Nat) {a : Char} (rest : List Char) (ha : a ≠ '\n') :
    collapseNlAux k (a :: rest) = a :: collapseNlAux 0 rest := by
  simp [collapseNlAux, ha]

theorem collapseSp_cons_hws_true {a : Char} (rest : List Char) (hw : isHWS a = true) :
    collapseSpAux true (a :: rest) = collapseSpAux true rest := by
  simp [collapseSpAux, hw]

theorem collapseSp_cons_hws_false {a : Char} (rest : List Char) (hw : isHWS a = true) :
    collapseSpAux false (a :: rest) = ' ' :: collapseSpAux true rest := by
  simp [collapseSpAux, hw]

theorem collapseSp_cons_other (f : Bool) {a : Char} (rest : List Char)
    (hw : ¬ isHWS a = true) : collapseSpAux f (a :: rest) = a :: collapseSpAux false rest := by
  simp [collapseSpAux, hw]

theorem hws_ne_nl {a : Char} (hw : isHWS a = true) : a ≠ '\n' := by
  rcases Bool.or_eq_true_iff.mp hw with h | h
  · intro hn; rw [hn] at h; exact absurd (of_decide_eq_true h) (by decide)
  · intro hn; rw [hn] at h; exact absurd (of_decide_eq_true h) (by decide)

theorem not_hws_elim {a : Char} (hw : ¬ isHWS a = true) : a ≠ ' ' ∧ a ≠ '\t' := by
  constructor
  · intro hn; rw [hn] at hw; exact hw (by decide)
  · intro hn; rw [hn] at hw; exact hw (by decide)

theorem not_pyws_elim {a : Char} (hw : ¬ isPyWS a = true) :
    a ≠ ' ' ∧ a ≠ '\t' ∧ a ≠ '\n' := by
  refine ⟨?_, ?_, ?_⟩ <;> intro hn <;> rw [hn] at hw <;> exact hw (by decide)

theorem replaceCr_eq_self : ∀ l : List Char, (∀ c ∈ l, c ≠ '\r') → replaceCr l = l := by
  intro l
  induction l with
  | nil => intro _; rfl
  | cons a rest ih =>
    intro h
    have ha : a ≠ '\r' := h a (List.mem_cons_self a rest)
    simp only [replaceCr, List.map_cons, if_neg ha]
    have := ih (fun c hc => h c (List.mem_cons_of_mem a hc))
    simp only [replaceCr] at this
    rw [this]

theorem noCr_replaceCr : ∀ (l : List Char), ∀ c ∈ replaceCr l, c ≠ '\r' := by
  intro l c hc
  obtain ⟨a, _, rfl⟩ := List.mem_map.mp hc
  by_cases ha : a = '\r'
  · rw [if_pos ha]; decide
  · rw [if_neg ha]; exact ha

theorem noCr_collapseNl : ∀ (l : List Char) (k : Nat), (∀ c ∈ l, c ≠ '\r') →
    ∀ c ∈ collapseNlAux k l, c ≠ '\r' := by
  intro l
  induction l with
  | nil => intro k _ c hc; simp [collapseNlAux] at hc
  | cons a rest ih =>
    intro k h c hc
    have ha : a ≠ '\r' := h a (List.mem_cons_self a rest)
    have hr : ∀ c ∈ rest, c ≠ '\r' := fun c hc => h c (List.mem_cons_of_mem a hc)
    by_cases han : a = '\n'
    · subst han
      by_cases hk : k < 2
      · rw [collapseNl_cons_nl_lt k rest hk] at hc
        rcases List.mem_cons.mp hc with rfl | hc
        · decide
        · exact ih _ hr c hc
      · rw [collapseNl_cons_nl_ge k rest hk] at hc
        exact ih _ hr c hc
    · rw [collapseNl_cons_other k rest han] at hc
      rcases List.mem_cons.mp hc with rfl | hc
      · exact ha
      · exact ih _ hr c hc

theorem noCr_collapseSp : ∀ (l : List Char) (f : Bool), (∀ c ∈ l, c ≠ '\r') →
    ∀ c ∈ collapseSpAux f l, c ≠ '\r' := by
  intro l
  induction l with
  | nil => intro f _ c hc; simp [collapseSpAux] at hc
  | cons a rest ih =>
    intro f h c hc
    have ha : a ≠ '\r' := h a (List.mem_cons_self a rest)
    have hr : ∀ c ∈ rest, c ≠ '\r' := fun c hc => h c (List.mem_cons_of_mem a hc)
    by_cases hw : isHWS a
    · cases f
      · rw [collapseSp_cons_hws_false rest hw] at hc
        rcases List.mem_cons.mp hc with rfl | hc
        · decide
        · exact ih _ hr c hc
      · rw [collapseSp_cons_hws_true rest hw] at hc
        exact ih _ hr c hc
    · rw [collapseSp_cons_other f rest hw] at hc
      rcases List.mem_cons.mp hc with rfl | hc
      · exact ha
      · exact ih _ hr c hc

theorem nlOk_mono : ∀ (l : List Char) (k j : Nat), j ≤ k → nlOk k l = true →
    nlOk j l = true := by
  intro l
  induction l with
  | nil => intro k j _ _; rfl
  | cons a rest ih =>
    intro k j hjk h
    by_cases ha : a = '\n'
    · subst ha
      rw [nlOk_cons_nl] at h ⊢
      rw [Bool.and_eq_true, decide_eq_true_iff] at h ⊢
      exact ⟨by omega, ih (k + 1) (j + 1) (by omega) h.2⟩
    · rw [nlOk_cons_other k rest ha] at h
      rw [nlOk_cons_other j rest ha]
      exact h

theorem nlOk_collapseNl : ∀ (l : List Char) (k : Nat),
    nlOk (min k 2) (collapseNlAux k l) = true := by
  intro l
  induction l with
  | nil => intro k; rfl
  | cons a rest ih =>
    intro k
    by_cases ha : a = '\n'
    · subst ha
      by_cases hk : k < 2
      · rw [collapseNl_cons_nl_lt k rest hk, nlOk_cons_nl, Bool.and_eq_true,
          decide_eq_true_iff]
        refine ⟨by omega, ?_⟩
        have := ih (k + 1)
        rwa [show min (k + 1) 2 = min k 2 + 1 by omega] at this
      · rw [collapseNl_cons_nl_ge k rest hk]
        have := ih (k + 1)
        rwa [show min (k + 1) 2 = min k 2 by omega] at this
    · rw [collapseNl_cons_other k rest ha, nlOk_cons_other _ _ ha]
      have := ih 0
      rwa [show min 0 2 = 0 by omega] at this

theorem nlOk_collapseSp : ∀ (l : List Char) (k : Nat) (f : Bool), nlOk k l = true →
    nlOk (if f then 0 else k) (collapseSpAux f l) = true := by
  intro l
  induction l with
  | nil => intro k f _; cases f <;> rfl
  | cons a rest ih =>
    intro k f h
    by_cases hw : isHWS a
    · have ha := hws_ne_nl hw
      have h0 : nlOk 0 rest = true := by rwa [nlOk_cons_other k rest ha] at h
      cases f
      · rw [collapseSp_cons_hws_false rest hw,
          nlOk_cons_other _ _ (by decide : (' ' : Char) ≠ '\n')]
        have := ih 0 true h0
        simpa using this
      · rw [collapseSp_cons_hws_true rest hw]
        have := ih 0 true h0
        simpa using this
    · rw [collapseSp_cons_other f rest hw]
      by_cases ha : a = '\n'
      · subst ha
        rw [nlOk_cons_nl] at h
        rw [Bool.and_eq_true, decide_eq_true_iff] at h
        rw [nlOk_cons_nl, Bool.and_eq_true, decide_eq_true_iff]
        have hle : (if f then 0 else k) ≤ k := by cases f <;> simp
        refine ⟨by omega, ?_⟩
        have hrest := nlOk_mono rest (k + 1) ((if f then 0 else k) + 1) (by omega) h.2
        have := ih ((if f then 0 else k) + 1) false hrest
        simpa using this
      · have h0 : nlOk 0 rest = true := by rwa [nlOk_cons_other k rest ha] at h
        rw [nlOk_cons_other _ _ ha]
        have := ih 0 false h0
        simpa using this

theorem nlOk_append_left : ∀ (l₁ l₂ : List Char) (k : Nat),
    nlOk k (l₁ ++ l₂) = true → nlOk k l₁ = true := by
  intro l₁
  induction l₁ with
  | nil => intro l₂ k _; rfl
  | cons a rest ih =>
    intro l₂ k h
    rw [List.cons_append] at h
    by_cases ha : a = '\n'
    · subst ha
      rw [nlOk_cons_nl] at h ⊢
      rw [Bool.and_eq_true] at h ⊢
      exact ⟨h.1, ih l₂ (k + 1) h.2⟩
    · rw [nlOk_cons_other k _ ha] at h
      rw [nlOk_cons_other k rest ha]
      exact ih l₂ 0 h

theorem nlOk_dropWhile : ∀ (l : List Char) (k : Nat), nlOk k l = true →
    nlOk 0 (l.dropWhile isPyWS) = true := by
  intro l
  induction l with
  | nil => intro k _; rfl
  | cons a rest ih =>
    intro k h
    rw [List.dropWhile_cons]
    by_cases hw : isPyWS a
    · rw [if_pos hw]
      by_cases ha : a = '\n'
      · subst ha
        rw [nlOk_cons_nl, Bool.and_eq_true] at h
        exact ih (k + 1) h.2
      · rw [nlOk_cons_other k rest ha] at h
        exact ih 0 h
    · rw [if_neg hw]
      have ha : a ≠ '\n' := (not_pyws_elim hw).2.2
      rw [nlOk_cons_other 0 rest ha]
      rwa [nlOk_cons_other k rest ha] at h

theorem nlOk_pyStrip (l : List Char) (k : Nat) (h : nlOk k l = true) :
    nlOk 0 (pyStrip l) = true := by
  obtain ⟨u, hu⟩ := dropTrailingWs_pre (l.dropWhile isPyWS)
  have h1 := nlOk_dropWhile l k h
  rw [← hu] at h1
  exact nlOk_append_left _ u 0 h1

theorem collapseNl_eq_self : ∀ (l : List Char) (k : Nat), nlOk k l = true →
    collapseNlAux k l = l := by
  intro l
  induction l with
  | nil => intro k _; rfl
  | cons a rest ih =>
    intro k h
    by_cases ha : a = '\n'
    · subst ha
      rw [nlOk_cons_nl, Bool.and_eq_true, decide_eq_true_iff] at h
      rw [collapseNl_cons_nl_lt k rest h.1, ih (k + 1) h.2]
    · rw [collapseNl_cons_other k rest ha]
      rw [nlOk_cons_other k rest ha] at h
      rw [ih 0 h]

theorem nlOk_noTriple : ∀ (l : List Char) (k : Nat), nlOk k l = true →
    hasTripleNl l = false := by
  intro l
  induction l with
  | nil => intro k _; rfl
  | cons a rest ih =>
    intro k h
    cases rest with
    | nil => rfl
    | cons b rest2 =>
      cases rest2 with
      | nil => rfl
      | cons c t =>
        simp only [hasTripleNl, Bool.or_eq_false_iff]
        have hrec : ∃ j, nlOk j (b :: c :: t) = true := by
          by_cases ha : a = '\n'
          · subst ha
            rw [nlOk_cons_nl, Bool.and_eq_true] at h
            exact ⟨k + 1, h.2⟩
          · rw [nlOk_cons_other k _ ha] at h
            exact ⟨0, h⟩
        obtain ⟨j, hj⟩ := hrec
        refine ⟨?_, ih j hj⟩
        by_cases ha : a = '\n'
        · by_cases hb : b = '\n'
          · by_cases hcn : c = '\n'
            · exfalso
              subst ha; subst hb; subst hcn
              rw [nlOk_cons_nl, Bool.and_eq_true, decide_eq_true_iff] at h
              obtain ⟨hk1, h⟩ := h
              rw [nlOk_cons_nl, Bool.and_eq_true, decide_eq_true_iff] at h
              obtain ⟨hk2, h⟩ := h
              rw [nlOk_cons_nl, Bool.and_eq_true, decide_eq_true_iff] at h
              omega
            · simp [hcn]
          · simp [hb]
        · simp [ha]

theorem spOk_collapseSp : ∀ (l : List Char) (f : Bool),
    spOk f (collapseSpAux f l) = true := by
  intro l
  induction l with
  | nil => intro f; rfl
  | cons a rest ih =>
    intro f
    by_cases hw : isHWS a
    · cases f
      · rw [collapseSp_cons_hws_false rest hw, spOk_cons_space, Bool.not_false,
          Bool.true_and]
        exact ih true
      · rw [collapseSp_cons_hws_true rest hw]
        exact ih true
    · obtain ⟨h1, h2⟩ := not_hws_elim hw
      rw [collapseSp_cons_other f rest hw, spOk_cons_other f _ h1 h2]
      exact ih false

theorem spOk_append_left : ∀ (l₁ l₂ : List Char) (f : Bool),
    spOk f (l₁ ++ l₂) = true → spOk f l₁ = true := by
  intro l₁
  induction l₁ with
  | nil => intro l₂ f _; rfl
  | cons a rest ih =>
    intro l₂ f h
    rw [List.cons_append] at h
    by_cases ha1 : a = ' '
    · subst ha1
      rw [spOk_cons_space, Bool.and_eq_true] at h ⊢
      exact ⟨h.1, ih l₂ true h.2⟩
    · by_cases ha2 : a = '\t'
      · subst ha2; rw [spOk_cons_tab] at h; exact absurd h (by simp)
      · rw [spOk_cons_other f _ ha1 ha2] at h
        rw [spOk_cons_other f rest ha1 ha2]
        exact ih l₂ false h

theorem spOk_dropWhile : ∀ (l : List Char) (f : Bool), spOk f l = true →
    spOk false (l.dropWhile isPyWS) = true := by
  intro l
  induction l with
  | nil => intro f _; rfl
  | cons a rest ih =>
    intro f h
    rw [List.dropWhile_cons]
    by_cases hw : isPyWS a
    · rw [if_pos hw]
      by_cases ha1 : a = ' '
      · subst ha1
        rw [spOk_cons_space, Bool.and_eq_true] at h
        exact ih true h.2
      · by_cases ha2 : a = '\t'
        · subst ha2; rw [spOk_cons_tab] at h; exact absurd h (by simp)
        · rw [spOk_cons_other f rest ha1 ha2] at h
          exact ih false h
    · rw [if_neg hw]
      obtain ⟨h1, h2, _⟩ := not_pyws_elim hw
      rw [spOk_cons_other false rest h1 h2]
      rwa [spOk_cons_other f rest h1 h2] at h

theorem spOk_pyStrip (l : List Char) (f : Bool) (h : spOk f l = true) :
    spOk false (pyStrip l) = true := by
  obtain ⟨u, hu⟩ := dropTrailingWs_pre (l.dropWhile isPyWS)
  have h1 := spOk_dropWhile l f h
  rw [← hu] at h1
  exact spOk_append_left _ u false h1

theorem collapseSp_eq_self : ∀ (l : List Char) (f : Bool), spOk f l = true →
    collapseSpAux f l = l := by
  intro l
  induction l with
  | nil => intro f _; rfl
  | cons a rest ih =>
    intro f h
    by_cases ha1 : a = ' '
    · subst ha1
      rw [spOk_cons_space, Bool.and_eq_true] at h
      have hf : f = false := by
        cases f
        · rfl
        · exact absurd h.1 (by simp)
      subst hf
      rw [collapseSp_cons_hws_false rest (by decide), ih true h.2]
    · by_cases ha2 : a = '\t'
      · subst ha2; rw [spOk_cons_tab] at h; exact absurd h (by simp)
      · have hw : ¬ isHWS a = true := by
          intro hh
          rcases Bool.or_eq_true_iff.mp hh with hc | hc
          · exact ha1 (by exact of_decide_eq_true hc)
          · exact ha2 (by exact of_decide_eq_true hc)
        rw [collapseSp_cons_other f rest hw]
        rw [spOk_cons_other f rest ha1 ha2] at h
        rw [ih false h]

theorem spOk_noDouble : ∀ (l : List Char) (f : Bool), spOk f l = true →
    hasDoubleHws l = false := by
  intro l
  induction l with
  | nil => intro f _; rfl
  | cons a rest ih =>
    intro f h
    cases rest with
    | nil => rfl
    | cons b t =>
      simp only [hasDoubleHws, Bool.or_eq_false_iff]
      have hrec : ∃ g, spOk g (b :: t) = true := by
        by_cases ha1 : a = ' '
        · subst ha1
          rw [spOk_cons_space, Bool.and_eq_true] at h
          exact ⟨true, h.2⟩
        · by_cases ha2 : a = '\t'
          · subst ha2; rw [spOk_cons_tab] at h; exact absurd h (by simp)
          · rw [spOk_cons_other f _ ha1 ha2] at h
            exact ⟨false, h⟩
      obtain ⟨g, hg⟩ := hrec
      refine ⟨?_, ih g hg⟩
      by_cases ha1 : a = ' '
      · subst ha1
        rw [spOk_cons_space, Bool.and_eq_true] at h
        have hb : isHWS b = false := by
          by_cases hb1 : b = ' '
          · subst hb1
            rw [spOk_cons_space, Bool.and_eq_true] at h
            exact absurd h.2.1 (by simp)
          · by_cases hb2 : b = '\t'
            · subst hb2; rw [spOk_cons_tab] at h; exact absurd h.2 (by simp)
            · simp [isHWS, hb1, hb2]
        simp [hb]
      · by_cases ha2 : a = '\t'
        · subst ha2; rw [spOk_cons_tab] at h; exact absurd h (by simp)
        · simp [isHWS, ha1, ha2]

theorem normalize_facts (s : List Char) :
    (∀ c ∈ normalize_text s, c ≠ '\r') ∧ nlOk 0 (normalize_text s) = true ∧
    spOk false (normalize_text s) = true ∧ headNotWs (normalize_text s) ∧
    endsNotWs (normalize_text s) := by
  refine ⟨?_, ?_, ?_, headNotWs_pyStrip _, endsNotWs_pyStrip _⟩
  · intro c hc
    have hc2 := (pyStrip_sublist _).subset hc
    exact noCr_collapseSp _ false
      (noCr_collapseNl _ 0 (noCr_replaceCr _)) c hc2
  · have h1 := nlOk_collapseNl (replaceCr s) 0
    rw [show min 0 2 = 0 by omega] at h1
    have h2 := nlOk_collapseSp _ 0 false h1
    simp only [Bool.false_eq_true, if_false] at h2
    exact nlOk_pyStrip _ 0 h2
  · exact spOk_pyStrip _ _ (spOk_collapseSp _ false)

/-- C4: `normalize_text` is idempotent: normalizing an already-normalized
string changes nothing. -/
theorem normalize_text_idempotent (s : List Char) :
    normalize_text (normalize_text s) = normalize_text s := by
  obtain ⟨hcr, hnl, hsp, hh, he⟩ := normalize_facts s
  show pyStrip (collapseSpAux false (collapseNlAux 0 (replaceCr (normalize_text s)))) =
    normalize_text s
  rw [replaceCr_eq_self _ hcr, collapseNl_eq_self _ 0 hnl,
    collapseSp_eq_self _ false hsp, pyStrip_eq_self _ hh he]

/-- C5: the output of `normalize_text` has no run of three consecutive
newlines, no run of two consecutive horizontal whitespace characters, no
carriage returns, and no leading or trailing whitespace. -/
theorem normalize_text_whitespace_clean (s : List Char) :
    hasTripleNl (normalize_text s) = false ∧ hasDoubleHws (normalize_text s) = false ∧
    (∀ c ∈ normalize_text s, c ≠ '\r') ∧ headNotWs (normalize_text s) ∧
    endsNotWs (normalize_text s) := by
  obtain ⟨hcr, hnl, hsp, hh, he⟩ := normalize_facts s
  exact ⟨nlOk_noTriple _ 0 hnl, spOk_noDouble _ false hsp, hcr, hh, he⟩

theorem normalize_text_whitespace_clean_witness :
    hasTripleNl (normalize_text (("a\r\n\n\n\nb\t\tc  ").data)) = false :=
  (normalize_text_whitespace_clean (("a\r\n\n\n\nb\t\tc  ").data)).1


/-! ### Chunker: buffer lemmas and simulation -/

theorem bufOf_nil (s : List Char) : bufOf s [] = s := rfl

theorem bufOf_cons (s p : List Char) (ps : List (List Char)) :
    bufOf s (p :: ps) = bufOf (addPara s p) ps := rfl

theorem bufOf_append (s : List Char) (ps : List (List Char)) (p : List Char) :
    bufOf s (ps ++ [p]) = addPara (bufOf s ps) p := by
  unfold bufOf
  rw [List.foldl_append]
  rfl

theorem addPara_nil (p : List Char) : addPara [] p = p := by
  unfold addPara
  rw [if_pos rfl]

theorem addPara_ne (cur p : List Char) (hc : cur ≠ []) :
    addPara cur p = cur ++ sep2 ++ p := by
  unfold addPara
  rw [if_neg hc]

theorem addPara_ne_nil {p : List Char} (cur : List Char) (hp : p ≠ []) :
    addPara cur p ≠ [] := by
  by_cases hc : cur = []
  · rw [hc, addPara_nil]; exact hp
  · rw [addPara_ne cur p hc]
    simp [hp]

theorem bufOf_ne_nil : ∀ (ps : List (List Char)) (s : List Char),
    (∀ p ∈ ps, p ≠ []) → (s ≠ [] ∨ ps ≠ []) → bufOf s ps ≠ [] := by
  intro ps
  induction ps with
  | nil =>
    intro s _ hd
    rcases hd with h | h
    · exact h
    · exact absurd rfl h
  | cons p ps' ih =>
    intro s h _
    rw [bufOf_cons]
    exact ih _ (fun q hq => h q (List.mem_cons_of_mem p hq))
      (Or.inl (addPara_ne_nil s (h p (List.mem_cons_self p ps'))))

theorem endsNotWs_nil : endsNotWs ([] : List Char) := by
  intro c hc
  simp at hc

theorem getLast?_append_right {l₁ l₂ : List Char} (h : l₂ ≠ []) :
    (l₁ ++ l₂).getLast? = l₂.getLast? :=
  (getLast?_of_suffix (List.suffix_append l₁ l₂) h).symm

theorem head?_append_left {l₁ l₂ : List Char} (h : l₁ ≠ []) :
    (l₁ ++ l₂).head? = l₁.head? :=
  (head?_of_pre (List.prefix_append l₁ l₂) h).symm

theorem addPara_endsNotWs {p : List Char} (cur : List Char) (hp : goodPara p) :
    endsNotWs (addPara cur p) := by
  by_cases hc : cur = []
  · rw [hc, addPara_nil]; exact goodPara_last hp
  · rw [addPara_ne cur p hc]
    intro c hcm
    rw [List.append_assoc, getLast?_append_right (by simp [hp.2])] at hcm
    rw [getLast?_append_right hp.2] at hcm
    exact goodPara_last hp c hcm

theorem bufOf_endsNotWs : ∀ (ps : List (List Char)) (s : List Char),
    (∀ p ∈ ps, goodPara p) → endsNotWs s → endsNotWs (bufOf s ps) := by
  intro ps
  induction ps with
  | nil => intro s _ hs; exact hs
  | cons p ps' ih =>
    intro s h hs
    rw [bufOf_cons]
    exact ih _ (fun q hq => h q (List.mem_cons_of_mem p hq))
      (addPara_endsNotWs s (h p (List.mem_cons_self p ps')))

theorem glueParas_shift : ∀ (ps : List (List Char)) (a : List Char),
    ps.foldl (fun a p => a ++ sep2 ++ p) a = a ++ glueParas ps := by
  intro ps
  induction ps with
  | nil => intro a; simp [glueParas]
  | cons p ps' ih =>
    intro a
    rw [List.foldl_cons, ih (a ++ sep2 ++ p)]
    rw [show glueParas (p :: ps') = ps'.foldl (fun a p => a ++ sep2 ++ p) ([] ++ sep2 ++ p)
        from rfl,
      ih ([] ++ sep2 ++ p)]
    simp [List.append_assoc]

theorem bufOf_seed_ne (ps : List (List Char)) (s : List Char) (hs : s ≠ []) :
    bufOf s ps = s ++ glueParas ps := by
  induction ps generalizing s with
  | nil => simp [bufOf_nil, glueParas]
  | cons p ps' ih =>
    rw [bufOf_cons, addPara_ne s p hs,
      ih (s ++ sep2 ++ p) (by simp [sep2]),
      show glueParas (p :: ps') = ps'.foldl (fun a p => a ++ sep2 ++ p) ([] ++ sep2 ++ p)
        from rfl,
      glueParas_shift ps' ([] ++ sep2 ++ p)]
    simp [List.append_assoc]

theorem sepJoin_cons {p : List Char} (ps : List (List Char)) (hp : p ≠ []) :
    sepJoin (p :: ps) = p ++ glueParas ps := by
  show bufOf [] (p :: ps) = _
  rw [bufOf_cons, addPara_nil]
  exact bufOf_seed_ne ps p hp

theorem bufOf_decompose (ps : List (List Char)) (s : List Char) (hs : s ≠ [])
    (hps : ps ≠ []) (hall : ∀ p ∈ ps, p ≠ []) :
    bufOf s ps = s ++ sep2 ++ sepJoin ps := by
  cases ps with
  | nil => exact absurd rfl hps
  | cons p ps' =>
    rw [bufOf_seed_ne _ _ hs, sepJoin_cons ps' (hall p (List.mem_cons_self p ps')),
      show glueParas (p :: ps') = ps'.foldl (fun a p => a ++ sep2 ++ p) ([] ++ sep2 ++ p)
        from rfl,
      glueParas_shift ps' ([] ++ sep2 ++ p)]
    simp [List.append_assoc]

theorem sepJoin_headNotWs {ps : List (List Char)} (hall : ∀ p ∈ ps, goodPara p) :
    headNotWs (sepJoin ps) := by
  cases ps with
  | nil => intro c hc; simp [sepJoin, bufOf_nil] at hc
  | cons p ps' =>
    have hp := hall p (List.mem_cons_self p ps')
    rw [sepJoin_cons ps' hp.2]
    intro c hc
    rw [head?_append_left hp.2] at hc
    exact goodPara_head hp c hc

theorem dropWhile_ne_nil_of_endsNotWs {l : List Char} (he : endsNotWs l)
    (hne : l ≠ []) : l.dropWhile isPyWS ≠ [] := by
  have h := pyStrip_ne_nil l he hne
  rwa [pyStrip_eq_dropWhile l he] at h

theorem chunkStep_sim (m o : Nat) (st : CState) (p : List Char) :
    chunkStep m o (st.recs.map chunkOf, bufOf st.seed st.curPs) p =
      ((instrStep m o st p).recs.map chunkOf,
        bufOf (instrStep m o st p).seed (instrStep m o st p).curPs) := by
  by_cases h1 : m < (bufOf st.seed st.curPs).length + p.length + 2
  · by_cases h2 : bufOf st.seed st.curPs ≠ []
    · rw [show instrStep m o st p =
          ⟨st.recs ++ [(st.seed, st.curPs)], seedOf o (bufOf st.seed st.curPs), [p]⟩
          from by unfold instrStep; rw [if_pos ⟨h1, h2⟩]]
      simp only [chunkStep, chunkFinalize, if_pos h1, if_pos h2]
      rw [List.map_append]
      rfl
    · rw [show instrStep m o st p = ⟨st.recs, st.seed, st.curPs ++ [p]⟩
          from by unfold instrStep; rw [if_neg (by tauto)]]
      simp only [chunkStep, chunkFinalize, if_pos h1, if_neg h2]
      rw [bufOf_append]
  · rw [show instrStep m o st p = ⟨st.recs, st.seed, st.curPs ++ [p]⟩
        from by unfold instrStep; rw [if_neg (by tauto)]]
    simp only [chunkStep, if_neg h1]
    rw [bufOf_append]

theorem foldl_sim (m o : Nat) : ∀ (ps : List (List Char)) (st : CState),
    ps.foldl (chunkStep m o) (st.recs.map chunkOf, bufOf st.seed st.curPs) =
      ((ps.foldl (instrStep m o) st).recs.map chunkOf,
        bufOf (ps.foldl (instrStep m o) st).seed (ps.foldl (instrStep m o) st).curPs) := by
  intro ps
  induction ps with
  | nil => intro st; rfl
  | cons p ps' ih =>
    intro st
    rw [List.foldl_cons, List.foldl_cons, chunkStep_sim m o st p, ih (instrStep m o st p)]

theorem split_eq_chunkRecs (t : List Char) (m o : Nat) :
    split_into_chunks t m o = (chunkRecs t m o).map chunkOf := by
  unfold split_into_chunks chunkRecs
  have h0 : (([], []) : List (List Char) × List Char) =
      ((⟨[], [], []⟩ : CState).recs.map chunkOf,
        bufOf (⟨[], [], []⟩ : CState).seed (⟨[], [], []⟩ : CState).curPs) := rfl
  rw [h0, foldl_sim m o (paragraphs (normalize_text t)) ⟨[], [], []⟩]
  set st := (paragraphs (normalize_text t)).foldl (instrStep m o) ⟨[], [], []⟩ with hst
  unfold chunkEmit instrEmit
  by_cases hs : pyStrip (bufOf st.seed st.curPs) ≠ []
  · rw [if_pos hs, if_pos hs, List.map_append]
    rfl
  · rw [if_neg hs, if_neg hs]

theorem instr_join (m o : Nat) : ∀ (ps : List (List Char)) (st : CState),
    ((ps.foldl (instrStep m o) st).recs.map Prod.snd).flatten ++
      (ps.foldl (instrStep m o) st).curPs =
    ((st.recs.map Prod.snd).flatten ++ st.curPs) ++ ps := by
  intro ps
  induction ps with
  | nil => intro st; simp
  | cons p ps' ih =>
    intro st
    rw [List.foldl_cons, ih (instrStep m o st p)]
    have hstep : ((instrStep m o st p).recs.map Prod.snd).flatten ++
        (instrStep m o st p).curPs =
        ((st.recs.map Prod.snd).flatten ++ st.curPs) ++ [p] := by
      unfold instrStep
      by_cases h : m < (bufOf st.seed st.curPs).length + p.length + 2 ∧
          bufOf st.seed st.curPs ≠ []
      · rw [if_pos h]
        simp [List.append_assoc]
      · rw [if_neg h]
        simp [List.append_assoc]
    rw [hstep]
    simp [List.append_assoc]


/-! ### Chunker: state invariant -/

theorem chunkInv_init (o : Nat) : ChunkInv o ⟨[], [], []⟩ := by
  refine ⟨?_, ?_, ?_, endsNotWs_nil, ?_, ?_, rfl, List.chain'_singleton _⟩
  · intro r hr; simp at hr
  · intro r hr; simp at hr
  · intro p hp; simp at hp
  · intro r hr; simp at hr
  · intro _; rfl

theorem chunkInv_step (m o : Nat) (st : CState) (p : List Char) (hp : goodPara p)
    (h : ChunkInv o st) : ChunkInv o (instrStep m o st p) := by
  unfold instrStep
  by_cases hc : m < (bufOf st.seed st.curPs).length + p.length + 2 ∧
      bufOf st.seed st.curPs ≠ []
  · rw [if_pos hc]
    have hcp : st.curPs ≠ [] := by
      intro hcp0
      apply hc.2
      rw [hcp0, h.emptyCur hcp0]
      rfl
    have hendcur : endsNotWs (bufOf st.seed st.curPs) :=
      bufOf_endsNotWs st.curPs st.seed h.curGood h.seedEnd
    refine ⟨?_, ?_, ?_, ?_, ?_, ?_, ?_, ?_⟩
    · intro r hr
      rcases List.mem_append.mp hr with hr | hr
      · exact h.recsNe r hr
      · rw [List.mem_singleton] at hr; subst hr; exact hcp
    · intro r hr
      rcases List.mem_append.mp hr with hr | hr
      · exact h.recsGood r hr
      · rw [List.mem_singleton] at hr; subst hr; exact h.curGood
    · intro q hq
      rw [List.mem_singleton] at hq; subst hq; exact hp
    · show endsNotWs (seedOf o (bufOf st.seed st.curPs))
      unfold seedOf
      by_cases hso : 0 < o ∧ o < (bufOf st.seed st.curPs).length
      · rw [if_pos hso]
        exact endsNotWs_of_suffix (takeLast_suffix o _) hendcur
      · rw [if_neg hso]; exact endsNotWs_nil
    · intro r hr
      rcases List.mem_append.mp hr with hr | hr
      · exact h.recsSeedEnd r hr
      · rw [List.mem_singleton] at hr; subst hr; exact h.seedEnd
    · intro hx; simp at hx
    · show ((st.recs ++ [(st.seed, st.curPs)]).headD _).1 = []
      cases hrec : st.recs with
      | nil =>
        have h0 := h.firstSeed
        rw [hrec] at h0
        simpa using h0
      | cons r rs =>
        have h0 := h.firstSeed
        rw [hrec] at h0
        simpa using h0
    · show List.Chain' _
        ((st.recs ++ [(st.seed, st.curPs)]) ++
          [(seedOf o (bufOf st.seed st.curPs), [p])])
      rw [List.chain'_append]
      refine ⟨h.chain, List.chain'_singleton _, ?_⟩
      intro x hx y hy
      rw [List.getLast?_concat] at hx
      simp only [Option.mem_def, Option.some.injEq] at hx
      subst hx
      simp only [List.head?_cons, Option.mem_def, Option.some.injEq] at hy
      subst hy
      rfl
  · rw [if_neg hc]
    refine ⟨h.recsNe, h.recsGood, ?_, h.seedEnd, h.recsSeedEnd, ?_, ?_, ?_⟩
    · intro q hq
      rcases List.mem_append.mp hq with hq | hq
      · exact h.curGood q hq
      · rw [List.mem_singleton] at hq; subst hq; exact hp
    · intro hx; simp at hx
    · show ((st.recs.headD (st.seed, st.curPs ++ [p]))).1 = []
      cases hrec : st.recs with
      | nil =>
        have h0 := h.firstSeed
        rw [hrec] at h0
        simpa using h0
      | cons r rs =>
        have h0 := h.firstSeed
        rw [hrec] at h0
        simpa using h0
    · show List.Chain' _ (st.recs ++ [(st.seed, st.curPs ++ [p])])
      have hold := h.chain
      rw [List.chain'_append] at hold ⊢
      refine ⟨hold.1, List.chain'_singleton _, ?_⟩
      intro x hx y hy
      simp only [List.head?_cons, Option.mem_def, Option.some.injEq] at hy
      subst hy
      exact hold.2.2 x hx (st.seed, st.curPs) (by simp)

theorem chunkInv_fold (m o : Nat) : ∀ (ps : List (List Char)) (st : CState),
    (∀ p ∈ ps, goodPara p) → ChunkInv o st →
    ChunkInv o (ps.foldl (instrStep m o) st) := by
  intro ps
  induction ps with
  | nil => intro st _ h; exact h
  | cons p ps' ih =>
    intro st hps h
    rw [List.foldl_cons]
    exact ih _ (fun q hq => hps q (List.mem_cons_of_mem p hq))
      (chunkInv_step m o st p (hps p (List.mem_cons_self p ps')) h)

theorem chunkRecs_facts (t : List Char) (m o : Nat) :
    (∀ r ∈ chunkRecs t m o, r.2 ≠ [] ∧ (∀ p ∈ r.2, goodPara p) ∧ endsNotWs r.1) ∧
    ((chunkRecs t m o).map Prod.fst).headD [] = [] ∧
    List.Chain' (fun a b => b.1 = seedOf o (bufOf a.1 a.2)) (chunkRecs t m o) ∧
    ((chunkRecs t m o).map Prod.snd).flatten = paragraphs (normalize_text t) := by
  have hinv := chunkInv_fold m o (paragraphs (normalize_text t)) ⟨[], [], []⟩
    (paragraphs_good _) (chunkInv_init o)
  have hjoin := instr_join m o (paragraphs (normalize_text t)) ⟨[], [], []⟩
  simp only [List.map_nil, List.flatten_nil, List.nil_append, List.append_nil] at hjoin
  unfold chunkRecs instrEmit
  set st := (paragraphs (normalize_text t)).foldl (instrStep m o) ⟨[], [], []⟩ with hst
  by_cases hs : pyStrip (bufOf st.seed st.curPs) ≠ []
  · rw [if_pos hs]
    have hcp : st.curPs ≠ [] := by
      intro h0
      apply hs
      rw [h0, hinv.emptyCur h0]
      rfl
    refine ⟨?_, ?_, hinv.chain, ?_⟩
    · intro r hr
      rcases List.mem_append.mp hr with hr | hr
      · exact ⟨hinv.recsNe r hr, hinv.recsGood r hr, hinv.recsSeedEnd r hr⟩
      · rw [List.mem_singleton] at hr; subst hr
        exact ⟨hcp, hinv.curGood, hinv.seedEnd⟩
    · cases hrec : st.recs with
      | nil =>
        have h0 := hinv.firstSeed
        rw [hrec] at h0
        simpa using h0
      | cons r rs =>
        have h0 := hinv.firstSeed
        rw [hrec] at h0
        simpa using h0
    · rw [List.map_append, List.flatten_append]
      simpa using hjoin
  · rw [if_neg hs]
    have hcp : st.curPs = [] := by
      by_contra h0
      apply hs
      apply pyStrip_ne_nil
      · exact bufOf_endsNotWs st.curPs st.seed hinv.curGood hinv.seedEnd
      · exact bufOf_ne_nil st.curPs st.seed
          (fun p hp => (hinv.curGood p hp).2) (Or.inr h0)
    refine ⟨?_, ?_, (List.chain'_append.mp hinv.chain).1, ?_⟩
    · intro r hr
      exact ⟨hinv.recsNe r hr, hinv.recsGood r hr, hinv.recsSeedEnd r hr⟩
    · cases hrec : st.recs with
      | nil => simp
      | cons r rs =>
        have h0 := hinv.firstSeed
        rw [hrec] at h0
        simpa using h0
    · rw [hcp, List.append_nil] at hjoin
      exact hjoin


/-! ### Chunker: size bound, decomposition, chain transfer -/

theorem bound_fold (m o L : Nat) : ∀ (ps : List (List Char)) (st : CState),
    (∀ p ∈ ps, p.length ≤ L) →
    ((bufOf st.seed st.curPs).length ≤ max m (o + 2 + L) ∧
      ∀ r ∈ st.recs, (bufOf r.1 r.2).length ≤ max m (o + 2 + L)) →
    ((bufOf (ps.foldl (instrStep m o) st).seed
        (ps.foldl (instrStep m o) st).curPs).length ≤ max m (o + 2 + L) ∧
      ∀ r ∈ (ps.foldl (instrStep m o) st).recs,
        (bufOf r.1 r.2).length ≤ max m (o + 2 + L)) := by
  intro ps
  induction ps with
  | nil => intro st _ h; exact h
  | cons p ps' ih =>
    intro st hL h
    rw [List.foldl_cons]
    apply ih _ (fun q hq => hL q (List.mem_cons_of_mem p hq))
    have hpL : p.length ≤ L := hL p (List.mem_cons_self p ps')
    have hsep : sep2.length = 2 := rfl
    unfold instrStep
    by_cases hc : m < (bufOf st.seed st.curPs).length + p.length + 2 ∧
        bufOf st.seed st.curPs ≠ []
    · rw [if_pos hc]
      constructor
      · show (bufOf (seedOf o (bufOf st.seed st.curPs)) [p]).length ≤ _
        rw [show bufOf (seedOf o (bufOf st.seed st.curPs)) [p] =
            addPara (seedOf o (bufOf st.seed st.curPs)) p from rfl]
        unfold seedOf
        by_cases hso : 0 < o ∧ o < (bufOf st.seed st.curPs).length
        · rw [if_pos hso]
          have hlen : (takeLast o (bufOf st.seed st.curPs)).length = o :=
            takeLast_length o _ (le_of_lt hso.2)
          by_cases hz : takeLast o (bufOf st.seed st.curPs) = []
          · rw [hz, addPara_nil]
            omega
          · rw [addPara_ne _ _ hz, List.length_append, List.length_append]
            omega
        · rw [if_neg hso, addPara_nil]
          omega
      · intro r hr
        rcases List.mem_append.mp hr with hr | hr
        · exact h.2 r hr
        · rw [List.mem_singleton] at hr; subst hr; exact h.1
    · rw [if_neg hc]
      refine ⟨?_, h.2⟩
      show (bufOf st.seed (st.curPs ++ [p])).length ≤ _
      rw [bufOf_append]
      by_cases hb : bufOf st.seed st.curPs = []
      · rw [hb, addPara_nil]
        omega
      · rcases Decidable.not_and_iff_or_not.mp hc with hnm | hne
        · push_neg at hnm
          rw [addPara_ne _ _ hb, List.length_append, List.length_append]
          omega
        · push_neg at hne
          exact absurd hne hb

theorem chunkRec_decompose (t : List Char) (m o : Nat) :
    ∀ r ∈ chunkRecs t m o, chunkOf r =
      (if r.1 = [] then [] else r.1.dropWhile isPyWS ++ sep2) ++ sepJoin r.2 := by
  intro r hr
  obtain ⟨hne, hgood, hseedEnd⟩ := (chunkRecs_facts t m o).1 r hr
  by_cases hs : r.1 = []
  · rw [if_pos hs, List.nil_append]
    show pyStrip (bufOf r.1 r.2) = sepJoin r.2
    rw [hs]
    show pyStrip (sepJoin r.2) = sepJoin r.2
    apply pyStrip_eq_self
    · exact sepJoin_headNotWs hgood
    · exact bufOf_endsNotWs r.2 [] hgood endsNotWs_nil
  · rw [if_neg hs]
    have hbuf : bufOf r.1 r.2 = r.1 ++ sep2 ++ sepJoin r.2 :=
      bufOf_decompose r.2 r.1 hs hne (fun p hp => (hgood p hp).2)
    show pyStrip (bufOf r.1 r.2) = _
    rw [pyStrip_eq_dropWhile _ (bufOf_endsNotWs r.2 r.1 hgood hseedEnd), hbuf,
      List.append_assoc,
      dropWhile_append_of_ne_nil _ (dropWhile_ne_nil_of_endsNotWs hseedEnd hs),
      ← List.append_assoc]

theorem chain'_imp_mem {α : Type} {R S : α → α → Prop} :
    ∀ (l : List α), (∀ a ∈ l, ∀ b ∈ l, R a b → S a b) → l.Chain' R → l.Chain' S := by
  intro l
  induction l with
  | nil => intro _ _; exact List.chain'_nil
  | cons a l' ih =>
    intro h hc
    rw [List.chain'_cons'] at hc ⊢
    refine ⟨?_, ih (fun x hx y hy =>
      h x (List.mem_cons_of_mem a hx) y (List.mem_cons_of_mem a hy)) hc.2⟩
    intro y hy
    have hymem : y ∈ a :: l' :=
      List.mem_cons_of_mem a (List.mem_of_mem_head? hy)
    exact h a (List.mem_cons_self a l') y hymem (hc.1 y hy)


/-! ### Prompt assembly lemmas -/

theorem pyStrip_cons_ws {c : Char} (l : List Char) (hc : isPyWS c = true) :
    pyStrip (c :: l) = pyStrip l := by
  unfold pyStrip
  rw [List.dropWhile_cons, if_pos hc]

theorem pyStrip_wrap (body : List Char) (hne : body ≠ []) (h1 : headNotWs body)
    (h2 : endsNotWs body) : pyStrip ('\n' :: (body ++ ['\n'])) = body := by
  rw [pyStrip_cons_ws _ (by decide)]
  unfold pyStrip
  rw [dropWhile_eq_self isPyWS (body ++ ['\n'])
    (by intro c hc
        rw [head?_append_left hne] at hc
        exact h1 c hc)]
  unfold dropTrailingWs
  rw [List.reverse_append, show (['\n'] : List Char).reverse = ['\n'] from rfl,
    List.singleton_append, List.dropWhile_cons, if_pos (by decide : isPyWS '\n' = true),
    dropWhile_eq_self isPyWS body.reverse
      (by intro c hc
          rw [List.head?_reverse] at hc
          exact h2 c hc),
    List.reverse_reverse]

/-! ### Claim theorems, witnesses and counterexamples -/

/-- C1, counterexample: with `maxSize = 10`, `overlap = 5`, every paragraph
of the normalized input has length at most 10, yet the middle chunk
(overlap seed + separator + one paragraph) has length 15 > 10.  So a chunk
can exceed `maxSize` although it contains no paragraph longer than
`maxSize`. -/
theorem c1_counterexample :
    split_into_chunks (("aaaaaaaa\n\nbbbbbbbb\n\nc").data) 10 5 =
      [("aaaaaaaa").data, ("aaaaa\n\nbbbbbbbb").data, ("bbbbb\n\nc").data] ∧
    (∀ p ∈ paragraphs (normalize_text (("aaaaaaaa\n\nbbbbbbbb\n\nc").data)),
      p.length ≤ 10) ∧
    10 < (("aaaaa\n\nbbbbbbbb").data).length := by decide

/-- C1 (amended): for `maxSize > 0` and any `overlap`, every chunk of
`split_into_chunks` has length at most
`max maxSize (overlap + 2 + L)` whenever `L` bounds the lengths of the
paragraphs of the normalized input: the soft bound degrades only by the
overlap seed plus the two-character separator in front of one paragraph. -/
theorem chunk_size_soft_bound (t : List Char) (m o L : Nat) (hm : 0 < m)
    (hL : ∀ p ∈ paragraphs (normalize_text t), p.length ≤ L) :
    ∀ c ∈ split_into_chunks t m o, c.length ≤ max m (o + 2 + L) := by
  intro c hc
  rw [split_eq_chunkRecs] at hc
  obtain ⟨r, hr, rfl⟩ := List.mem_map.mp hc
  have hbase := bound_fold m o L (paragraphs (normalize_text t)) ⟨[], [], []⟩ hL
    (by constructor
        · show (bufOf ([] : List Char) []).length ≤ _
          simp [bufOf_nil]
        · intro r hr
          simp at hr)
  have hb : (bufOf r.1 r.2).length ≤ max m (o + 2 + L) := by
    revert hr
    unfold chunkRecs instrEmit
    set st := (paragraphs (normalize_text t)).foldl (instrStep m o) ⟨[], [], []⟩
    by_cases hs : pyStrip (bufOf st.seed st.curPs) ≠ []
    · rw [if_pos hs]
      intro hr
      rcases List.mem_append.mp hr with hr | hr
      · exact hbase.2 r hr
      · rw [List.mem_singleton] at hr
        subst hr
        exact hbase.1
    · rw [if_neg hs]
      intro hr
      exact hbase.2 r hr
  exact le_trans (pyStrip_length_le _) hb

theorem chunk_size_soft_bound_witness :
    (("bbbb\n\ncccccc").data).length ≤ max 10 (5 + 2 + 6) :=
  chunk_size_soft_bound (("aaa\n\nbbbb\n\ncccccc").data) 10 5 6 (by decide)
    (by decide) (("bbbb\n\ncccccc").data) (by decide)

/-- C2, counterexample: with `overlap = 5 < 9 = len(chunk[0])`, the
prefix of `chunk[1]` of length 5 is `"bbbb\n"`, but the trailing 5
characters of `chunk[0]` are `"\nbbbb"`: the seeded overlap starts with
whitespace that `strip()` removes from the next chunk. -/
theorem c2_counterexample :
    split_into_chunks (("aaa\n\nbbbb\n\ncccccc").data) 10 5 =
      [("aaa\n\nbbbb").data, ("bbbb\n\ncccccc").data] ∧
    5 < (("aaa\n\nbbbb").data).length ∧
    ¬ List.take 5 (("bbbb\n\ncccccc").data) = takeLast 5 (("aaa\n\nbbbb").data) := by
  decide

/-- C2 (amended): for `overlap > 0`, whenever `overlap < len(chunk[i-1])`,
the trailing `overlap` characters of `chunk[i-1]` — after dropping their
leading whitespace — are a prefix of `chunk[i]`. -/
theorem chunk_overlap_seeded (t : List Char) (m o : Nat) (ho : 0 < o) :
    List.Chain' (fun a b => o < a.length →
      (takeLast o a).dropWhile isPyWS <+: b) (split_into_chunks t m o) := by
  rw [split_eq_chunkRecs, List.chain'_map]
  apply chain'_imp_mem (chunkRecs t m o) ?_ (chunkRecs_facts t m o).2.2.1
  intro a ha b hb hRel hlen
  have hfa := (chunkRecs_facts t m o).1 a ha
  have hfb := (chunkRecs_facts t m o).1 b hb
  have henda : endsNotWs (bufOf a.1 a.2) := bufOf_endsNotWs a.2 a.1 hfa.2.1 hfa.2.2
  have hca : chunkOf a = (bufOf a.1 a.2).dropWhile isPyWS :=
    pyStrip_eq_dropWhile _ henda
  have hsufa : chunkOf a <:+ bufOf a.1 a.2 := by
    rw [hca]
    exact List.dropWhile_suffix _
  have hlenb : o < (bufOf a.1 a.2).length := lt_of_lt_of_le hlen hsufa.length_le
  have hb1 : b.1 = takeLast o (bufOf a.1 a.2) := by
    rw [hRel]
    unfold seedOf
    rw [if_pos ⟨ho, hlenb⟩]
  have htake : takeLast o (bufOf a.1 a.2) = takeLast o (chunkOf a) :=
    takeLast_of_suffix o hsufa (le_of_lt hlen)
  have hb1len : b.1.length = o := by
    rw [hb1]
    exact takeLast_length o _ (le_of_lt hlenb)
  have hb1ne : b.1 ≠ [] := by
    intro h0
    rw [h0] at hb1len
    simp at hb1len
    omega
  have hendb : endsNotWs (bufOf b.1 b.2) := bufOf_endsNotWs b.2 b.1 hfb.2.1 hfb.2.2
  have hbuf : bufOf b.1 b.2 = b.1 ++ sep2 ++ sepJoin b.2 :=
    bufOf_decompose b.2 b.1 hb1ne hfb.1 (fun p hp => (hfb.2.1 p hp).2)
  have hcb : chunkOf b = b.1.dropWhile isPyWS ++ (sep2 ++ sepJoin b.2) := by
    show pyStrip (bufOf b.1 b.2) = _
    rw [pyStrip_eq_dropWhile _ hendb, hbuf, List.append_assoc,
      dropWhile_append_of_ne_nil _ (dropWhile_ne_nil_of_endsNotWs hfb.2.2 hb1ne)]
  rw [← htake, ← hb1, hcb]
  exact ⟨sep2 ++ sepJoin b.2, rfl⟩

theorem chunk_overlap_seeded_witness :
    List.Chain' (fun a b => 5 < a.length →
      (takeLast 5 a).dropWhile isPyWS <+: b)
      (split_into_chunks (("aaa\n\nbbbb\n\ncccccc").data) 10 5) :=
  chunk_overlap_seeded (("aaa\n\nbbbb\n\ncccccc").data) 10 5 (by decide)

/-- C3: the novel paragraph groups of the chunks concatenate, in order,
to exactly the paragraph sequence of the normalized input; each chunk is
its (leading-whitespace-stripped) seed, a separator when the seed is
nonempty, followed by its novel paragraphs joined by `"\n\n"`; and the
first chunk has no seed. -/
theorem chunk_coverage_exact (t : List Char) (m o : Nat) :
    ((chunkRecs t m o).map Prod.snd).flatten = paragraphs (normalize_text t) ∧
    split_into_chunks t m o = (chunkRecs t m o).map
      (fun r => (if r.1 = [] then [] else r.1.dropWhile isPyWS ++ sep2) ++
        sepJoin r.2) ∧
    ((chunkRecs t m o).map Prod.fst).headD [] = [] := by
  refine ⟨(chunkRecs_facts t m o).2.2.2, ?_, (chunkRecs_facts t m o).2.1⟩
  rw [split_eq_chunkRecs]
  exact List.map_congr_left (chunkRec_decompose t m o)

/-- C6: when the normalized input is empty the chunker returns no chunks;
in particular on `""` and on `"   \n\n\n  "` with the default
configuration. -/
theorem chunk_empty_input :
    (∀ (t : List Char) (m o : Nat), normalize_text t = [] →
      split_into_chunks t m o = []) ∧
    split_into_chunks [] 800 200 = [] ∧
    split_into_chunks (("   \n\n\n  ").data) 800 200 = [] := by
  refine ⟨?_, by decide, by decide⟩
  intro t m o h
  unfold split_into_chunks
  rw [h]
  rfl

theorem chunk_empty_input_witness : split_into_chunks (("\r").data) 7 3 = [] :=
  chunk_empty_input.1 (("\r").data) 7 3 (by decide)

/-- C7, counterexample: at bound `n = 0` with a nonempty prompt, Python
`prompt[-0:]` is the whole prompt, so `trim_prompt` does not return the
last 0 characters. -/
theorem c7_counterexample :
    0 < (("a").data).length ∧
    trim_prompt (("a").data) 0 ≠ takeLast 0 (("a").data) := by decide

/-- C7 (amended): for `n ≥ 1`, `trim_prompt p n` is the last `n`
characters of `p` when `len(p) > n` and `p` itself when `len(p) ≤ n`;
for `n = 0` it returns `p` unchanged (Python `-0 = 0`). -/
theorem trim_prompt_amended (p : List Char) (n : Nat) :
    (0 < n → n < p.length → trim_prompt p n = takeLast n p) ∧
    (p.length ≤ n → trim_prompt p n = p) ∧
    (n = 0 → trim_prompt p n = p) := by
  refine ⟨?_, ?_, ?_⟩
  · intro hn hlen
    unfold trim_prompt
    rw [if_neg (by omega), if_neg (by omega)]
  · intro h
    unfold trim_prompt
    rw [if_pos h]
  · intro h
    subst h
    unfold trim_prompt
    by_cases hl : p.length ≤ 0
    · rw [if_pos hl]
    · rw [if_neg hl, if_pos rfl]

theorem trim_prompt_amended_witness :
    trim_prompt (("abcdef").data) 2 = takeLast 2 (("abcdef").data) ∧
    trim_prompt (("ab").data) 5 = ("ab").data ∧
    trim_prompt (("a").data) 0 = ("a").data :=
  ⟨(trim_prompt_amended (("abcdef").data) 2).1 (by decide) (by decide),
   (trim_prompt_amended (("ab").data) 5).2.1 (by decide),
   (trim_prompt_amended (("a").data) 0).2.2 rfl⟩

/-- C8: the assembled prompt is exactly the template filled with the
rendered history, the chunks joined by blank lines, and the question; in
particular it contains the context-only instruction, the question, the
history rendering, and the joined context as contiguous substrings. -/
theorem build_prompt_embeds (chunks : List (List Char)) (hist : List ChatMsg)
    (q : List Char) :
    build_prompt chunks hist q =
      promptHead ++ historyText hist ++ promptMid1 ++
        List.intercalate sep2 chunks ++ promptMid2 ++ q ++ promptTail ∧
    (("Answer ONLY using the provided context.").data) <:+:
      build_prompt chunks hist q ∧
    q <:+: build_prompt chunks hist q ∧
    historyText hist <:+: build_prompt chunks hist q ∧
    List.intercalate sep2 chunks <:+: build_prompt chunks hist q := by
  have hassoc : promptHead ++ historyText hist ++ promptMid1 ++
      List.intercalate sep2 chunks ++ promptMid2 ++ q ++ promptTail =
      promptHead ++ (historyText hist ++ (promptMid1 ++
        (List.intercalate sep2 chunks ++ (promptMid2 ++ (q ++ promptTail))))) := by
    simp [List.append_assoc]
  have heq : build_prompt chunks hist q =
      promptHead ++ historyText hist ++ promptMid1 ++
        List.intercalate sep2 chunks ++ promptMid2 ++ q ++ promptTail := by
    show pyStrip ('\n' :: ((promptHead ++ historyText hist ++ promptMid1 ++
      List.intercalate sep2 chunks ++ promptMid2 ++ q ++ promptTail) ++ ['\n'])) = _
    apply pyStrip_wrap
    · intro h0
      have h1 := (List.append_eq_nil.mp h0).2
      exact absurd h1 (by decide : promptTail ≠ [])
    · intro c hc
      rw [hassoc, head?_append_left (by decide : promptHead ≠ []),
        show promptHead.head? = some 'Y' from rfl] at hc
      rw [Option.mem_def, Option.some.injEq] at hc
      subst hc
      decide
    · intro c hc
      rw [getLast?_append_right (by decide : promptTail ≠ []),
        show promptTail.getLast? = some ':' from rfl] at hc
      rw [Option.mem_def, Option.some.injEq] at hc
      subst hc
      decide
  refine ⟨heq, ?_, ?_, ?_, ?_⟩
  · rw [heq]
    have h1 : (("Answer ONLY using the provided context.").data) <:+: promptHead := by
      decide
    exact h1.trans ⟨[], historyText hist ++ promptMid1 ++
      List.intercalate sep2 chunks ++ promptMid2 ++ q ++ promptTail,
      by simp [List.append_assoc]⟩
  · rw [heq]
    exact ⟨promptHead ++ historyText hist ++ promptMid1 ++
      List.intercalate sep2 chunks ++ promptMid2, promptTail,
      by simp [List.append_assoc]⟩
  · rw [heq]
    exact ⟨promptHead, promptMid1 ++ List.intercalate sep2 chunks ++ promptMid2 ++
      q ++ promptTail, by simp [List.append_assoc]⟩
  · rw [heq]
    exact ⟨promptHead ++ historyText hist ++ promptMid1,
      promptMid2 ++ q ++ promptTail, by simp [List.append_assoc]⟩

/-- C9: the upload handler rejects any filename not ending in `.pdf`
(case-insensitively) with HTTP 400 and stores nothing; a `.pdf` filename
is stored under the key `chatbot_id ++ "/" ++ filename`. -/
theorem upload_pdf_validation (cid fn : List Char) :
    (hasPdfExt fn = false → upload_pdf cid fn = .rejected 400) ∧
    (hasPdfExt fn = true → upload_pdf cid fn = .stored (cid ++ '/' :: fn)) := by
  constructor
  · intro h
    unfold upload_pdf
    rw [if_pos (by simp [h])]
  · intro h
    unfold upload_pdf
    rw [if_neg (by simp [h])]

theorem upload_pdf_validation_witness :
    upload_pdf (("c1").data) (("Doc.PDF").data) =
      .stored ((("c1").data) ++ '/' :: (("Doc.PDF").data)) ∧
    upload_pdf (("c1").data) (("doc.txt").data) = .rejected 400 :=
  ⟨(upload_pdf_validation (("c1").data) (("Doc.PDF").data)).2 (by decide),
   (upload_pdf_validation (("c1").data) (("doc.txt").data)).1 (by decide)⟩

/-- C10: every chunk returned by `split_into_chunks` is nonempty and
equal to its own strip (no leading or trailing whitespace). -/
theorem chunks_nonempty_stripped (t : List Char) (m o : Nat) (hm : 0 < m) :
    ∀ c ∈ split_into_chunks t m o, c ≠ [] ∧ pyStrip c = c := by
  intro c hc
  rw [split_eq_chunkRecs] at hc
  obtain ⟨r, hr, rfl⟩ := List.mem_map.mp hc
  obtain ⟨hne, hgood, hseedEnd⟩ := (chunkRecs_facts t m o).1 r hr
  constructor
  · show pyStrip (bufOf r.1 r.2) ≠ []
    apply pyStrip_ne_nil
    · exact bufOf_endsNotWs r.2 r.1 hgood hseedEnd
    · exact bufOf_ne_nil r.2 r.1 (fun p hp => (hgood p hp).2) (Or.inr hne)
  · exact pyStrip_idem _

theorem chunks_nonempty_stripped_witness :
    ("aaa\n\nbbbb").data ≠ [] ∧ pyStrip (("aaa\n\nbbbb").data) = ("aaa\n\nbbbb").data :=
  chunks_nonempty_stripped (("aaa\n\nbbbb\n\ncccccc").data) 10 5 (by decide)
    (("aaa\n\nbbbb").data) (by decide)

end RagCore
